import Mathlib

/-
Verification of the sdfx finite-element meshing and export core
(`render/march3fe.go`, `render/finiteelements/mesh/*.go`, `render/tet4.go`,
the marching-cubes interpolator and the ABAQUS/CalculiX `inp` writer).

Coordinates are embedded as rationals where the code only performs field
arithmetic and comparisons, and as real numbers where the code takes square
roots (edge lengths).  Go float64 rounding is not modelled.
-/

namespace Sdfx

/-- A 3D point, embedding `v3.Vec` (Go float64 components) with exact
rational coordinates. -/
structure Vec3 where
  x : ℚ
  y : ℚ
  z : ℚ
deriving DecidableEq

/-- Vertex buffer state, translated from `MeshTet4` of `part_003`
(fields `V` and `Lookup`): `V` is the append-only vertex list and
`lookup` the exact-key deduplication index mapping a vertex to its id.
It also serves as the model of the missing `buffer.VB`.
Modelled from the spec: the `buffer` package is absent from the sources;
spec section 4.3 describes `addVertex` as a tolerance-free exact-key
lookup assigning sequential integer ids, which is exactly the
`MeshTet4.addVertex` algorithm embedded here. -/
structure VB where
  V : List Vec3
  lookup : List (Vec3 × ℕ)
deriving DecidableEq

/-- The empty vertex buffer (`NewMeshTet4` / `buffer.NewVB`). -/
def VB.empty : VB := ⟨[], []⟩

/-- Exact-key association-list lookup (Go map indexing on the
coordinate triple). -/
def lookupA : List (Vec3 × ℕ) → Vec3 → Option ℕ
  | [], _ => none
  | (q, i) :: t, p => if q = p then some i else lookupA t p

/-- `addVertex` from `part_003` lines 64-80 (also `buffer.VB.Id`):
if the vertex is already in the lookup map return its id, otherwise
append it to `V`, record the new id (`vertexCount - 1`) in the map and
return it. -/
def VB.id (s : VB) (p : Vec3) : ℕ × VB :=
  match lookupA s.lookup p with
  | some i => (i, s)
  | none => (s.V.length, ⟨s.V ++ [p], (p, s.V.length) :: s.lookup⟩)

/-- Index of the first occurrence of a point in a vertex list. -/
def idxOf? (p : Vec3) : List Vec3 → Option ℕ
  | [] => none
  | q :: t => if q = p then some 0 else (idxOf? p t).map (· + 1)

/-- Buffer well-formedness: the vertex list has no duplicates and the
lookup map agrees with first-occurrence indices into `V`. -/
def VB.Inv (s : VB) : Prop :=
  s.V.Nodup ∧ ∀ p, lookupA s.lookup p = idxOf? p s.V

theorem idxOf?_eq_none {p : Vec3} {l : List Vec3} :
    idxOf? p l = none ↔ p ∉ l := by
  induction l with
  | nil => simp [idxOf?]
  | cons q t ih =>
    by_cases h : q = p
    · subst h
      simp [idxOf?]
    · have hred : idxOf? p (q :: t) = (idxOf? p t).map (· + 1) := by
        simp [idxOf?, h]
      rw [hred]
      simp only [Option.map_eq_none', List.mem_cons]
      rw [ih]
      constructor
      · rintro hn (rfl | hm)
        · exact h rfl
        · exact hn hm
      · intro hn hm
        exact hn (Or.inr hm)

theorem idxOf?_get {p : Vec3} {l : List Vec3} {i : ℕ}
    (h : idxOf? p l = some i) : l.get? i = some p := by
  induction l generalizing i with
  | nil => simp [idxOf?] at h
  | cons q t ih =>
    by_cases hq : q = p
    · subst hq
      have h' : idxOf? q (q :: t) = some 0 := by simp [idxOf?]
      rw [h'] at h
      cases h
      rfl
    · simp only [idxOf?, if_neg hq, Option.map_eq_some'] at h
      obtain ⟨j, hj, rfl⟩ := h
      simpa using ih hj

theorem idxOf?_append_left {p : Vec3} {l l' : List Vec3} {i : ℕ}
    (h : idxOf? p l = some i) : idxOf? p (l ++ l') = some i := by
  induction l generalizing i with
  | nil => simp [idxOf?] at h
  | cons q t ih =>
    by_cases hq : q = p
    · subst hq
      simp [idxOf?] at h ⊢
      omega
    · simp only [idxOf?, if_neg hq, Option.map_eq_some'] at h
      obtain ⟨j, hj, rfl⟩ := h
      have hih := ih hj
      simp only [List.cons_append, idxOf?, if_neg hq]
      rw [show t ++ l' = List.append t l' from rfl] at hih
      rw [hih]
      rfl

theorem idxOf?_append_none {p : Vec3} {l l' : List Vec3}
    (h : idxOf? p l = none) :
    idxOf? p (l ++ l') = (idxOf? p l').map (· + l.length) := by
  induction l with
  | nil => simp
  | cons q t ih =>
    by_cases hq : q = p
    · subst hq
      simp [idxOf?] at h
    · simp only [idxOf?, if_neg hq, Option.map_eq_none'] at h
      have hih := ih h
      simp only [List.cons_append, idxOf?, if_neg hq, List.length_cons]
      rw [show t ++ l' = List.append t l' from rfl] at hih
      rw [hih]
      clear hih
      cases idxOf? p l' with
      | none => simp
      | some a =>
        simp only [Option.map_some', Option.some.injEq]
        omega

theorem VB.empty_inv : VB.Inv VB.empty :=
  ⟨List.nodup_nil, fun _ => rfl⟩

/-- `VB.id` preserves the buffer invariant, extends the vertex list by at
most the added point, and returns the first-occurrence index of the point
in the updated vertex list. -/
theorem VB.id_spec (s : VB) (p : Vec3) (h : s.Inv) :
    (s.id p).2.Inv ∧ (∃ t, (s.id p).2.V = s.V ++ t) ∧
      idxOf? p (s.id p).2.V = some (s.id p).1 := by
  obtain ⟨hnd, hlk⟩ := h
  cases hc : lookupA s.lookup p with
  | some i =>
    have hgoal : s.id p = (i, s) := by simp [VB.id, hc]
    rw [hgoal]
    refine ⟨⟨hnd, hlk⟩, ⟨[], by simp⟩, ?_⟩
    rw [← hlk p, hc]
  | none =>
    have hfind : idxOf? p s.V = none := (hlk p).symm.trans hc
    have hpn : p ∉ s.V := idxOf?_eq_none.mp hfind
    have hgoal : s.id p = (s.V.length, ⟨s.V ++ [p], (p, s.V.length) :: s.lookup⟩) := by
      simp [VB.id, hc]
    rw [hgoal]
    refine ⟨⟨?_, ?_⟩, ⟨[p], rfl⟩, ?_⟩
    · rw [List.nodup_append]
      refine ⟨hnd, List.nodup_singleton p, ?_⟩
      intro a ha hb
      rw [List.mem_singleton] at hb
      subst hb
      exact hpn ha
    · intro q
      by_cases hq : p = q
      · subst hq
        simp only [lookupA, if_pos rfl]
        rw [idxOf?_append_none hfind]
        simp [idxOf?]
      · simp only [lookupA, if_neg hq]
        rw [hlk q]
        cases hcq : idxOf? q s.V with
        | some j => rw [idxOf?_append_left hcq]
        | none =>
          rw [idxOf?_append_none hcq]
          simp [idxOf?, hq]
    · rw [idxOf?_append_none hfind]
      simp [idxOf?]

/-- Run a sequence of `addVertex` calls from a buffer state, collecting the
returned ids in order (the point sequence of C3). -/
def runIds : List Vec3 → VB → List ℕ × VB
  | [], s => ([], s)
  | p :: t, s =>
    let r := s.id p
    let rest := runIds t r.2
    (r.1 :: rest.1, rest.2)

theorem runIds_length (ps : List Vec3) (s : VB) :
    (runIds ps s).1.length = ps.length := by
  induction ps generalizing s with
  | nil => rfl
  | cons p t ih => simp [runIds, ih]

theorem runIds_extends (ps : List Vec3) (s : VB) (h : s.Inv) :
    (runIds ps s).2.Inv ∧ ∃ t, (runIds ps s).2.V = s.V ++ t := by
  induction ps generalizing s with
  | nil => exact ⟨h, [], by simp [runIds]⟩
  | cons p t ih =>
    obtain ⟨h1, ⟨t1, ht1⟩, _⟩ := VB.id_spec s p h
    obtain ⟨h2, ⟨t2, ht2⟩⟩ := ih (s.id p).2 h1
    exact ⟨h2, t1 ++ t2, by simp [runIds, ht2, ht1]⟩

/-- Each returned id is the first-occurrence index of the corresponding
point in the final vertex list. -/
theorem runIds_idx (ps : List Vec3) (s : VB) (h : s.Inv) :
    ∀ k (hk : k < ps.length),
      idxOf? (ps.get ⟨k, hk⟩) (runIds ps s).2.V = (runIds ps s).1.get? k := by
  induction ps generalizing s with
  | nil =>
    intro k hk
    simp at hk
  | cons p t ih =>
    intro k hk
    obtain ⟨h1, _, hidx⟩ := VB.id_spec s p h
    obtain ⟨_, ⟨tl, htl⟩⟩ := runIds_extends t (s.id p).2 h1
    cases k with
    | zero =>
      show idxOf? p (runIds t (s.id p).2).2.V = some (s.id p).1
      rw [htl]
      exact idxOf?_append_left hidx
    | succ k' =>
      show idxOf? (t.get ⟨k', _⟩) (runIds t (s.id p).2).2.V =
        (runIds t (s.id p).2).1.get? k'
      exact ih (s.id p).2 h1 k' (Nat.lt_of_succ_lt_succ hk)

theorem runIds_subset (ps : List Vec3) (s : VB) :
    ∀ v ∈ (runIds ps s).2.V, v ∈ s.V ∨ v ∈ ps := by
  induction ps generalizing s with
  | nil =>
    intro v hv
    exact Or.inl hv
  | cons p t ih =>
    intro v hv
    rcases ih (s.id p).2 v hv with hm | hm
    · unfold VB.id at hm
      cases hc : lookupA s.lookup p with
      | some i =>
        rw [hc] at hm
        exact Or.inl hm
      | none =>
        rw [hc] at hm
        simp only [List.mem_append, List.mem_singleton] at hm
        rcases hm with hm | hm
        · exact Or.inl hm
        · exact Or.inr (by simp [hm])
    · exact Or.inr (by simp [hm])

/-- C3: for all point sequences added to the vertex buffer, two adds return
the same id exactly when the points are equal as keys (so adding the same
point twice returns the same id, and dedup is exact-key, not fuzzy), and
the number of distinct ids handed out never exceeds the number of distinct
points added. -/
theorem addVertex_exact_dedup (ps : List Vec3) (k l : ℕ)
    (hk : k < ps.length) (hl : l < ps.length) :
    ((runIds ps VB.empty).1.get? k = (runIds ps VB.empty).1.get? l ↔
      ps.get ⟨k, hk⟩ = ps.get ⟨l, hl⟩) ∧
    (runIds ps VB.empty).2.V.length ≤ ps.dedup.length := by
  have hkidx := runIds_idx ps VB.empty VB.empty_inv k hk
  have hlidx := runIds_idx ps VB.empty VB.empty_inv l hl
  constructor
  · constructor
    · intro hids
      rw [← hkidx, ← hlidx] at hids
      have hk' : ∃ i, idxOf? (ps.get ⟨k, hk⟩) (runIds ps VB.empty).2.V = some i := by
        rw [hkidx]
        have : k < (runIds ps VB.empty).1.length := by rw [runIds_length]; exact hk
        exact List.get?_eq_get this ▸ ⟨_, rfl⟩
      obtain ⟨i, hi⟩ := hk'
      have hj : idxOf? (ps.get ⟨l, hl⟩) (runIds ps VB.empty).2.V = some i := by
        rw [← hids, hi]
      have h1 := idxOf?_get hi
      have h2 := idxOf?_get hj
      rw [h1] at h2
      exact Option.some.inj h2.symm ▸ (Option.some.inj h2).symm ▸ rfl
    · intro hpts
      rw [← hkidx, ← hlidx, hpts]
  · have hnd : (runIds ps VB.empty).2.V.Nodup :=
      (runIds_extends ps VB.empty VB.empty_inv).1.1
    have hsub : (runIds ps VB.empty).2.V ⊆ ps.dedup := by
      intro v hv
      rcases runIds_subset ps VB.empty v hv with hm | hm
      · exact absurd hm (List.not_mem_nil v)
      · exact List.mem_dedup.mpr hm
    exact (List.subperm_of_subset hnd hsub).length_le

/-- Witness for C3 at the concrete sequence [p, q, p]. -/
theorem addVertex_exact_dedup_witness :
    (runIds [Vec3.mk 0 0 0, Vec3.mk 1 0 0, Vec3.mk 0 0 0] VB.empty).1.get? 0 =
      (runIds [Vec3.mk 0 0 0, Vec3.mk 1 0 0, Vec3.mk 0 0 0] VB.empty).1.get? 2 ∧
    (runIds [Vec3.mk 0 0 0, Vec3.mk 1 0 0, Vec3.mk 0 0 0] VB.empty).2.V.length ≤
      [Vec3.mk 0 0 0, Vec3.mk 1 0 0, Vec3.mk 0 0 0].dedup.length := by
  have h := addVertex_exact_dedup [Vec3.mk 0 0 0, Vec3.mk 1 0 0, Vec3.mk 0 0 0] 0 2
    (by decide) (by decide)
  exact ⟨h.1.mpr (by decide), h.2⟩

/-! ## Node-set member line wrapping in the boundary file (C4)

The loop in `Inp.writeBoundary` (`part_000` lines 407-426) writes each
node-set member as `id+1` followed by a separator: the final member is
followed by a bare newline, a member at index `j` with `j ≠ 0` and
`j % 15 == 0` is followed by a comma and a newline (line continuation),
and every other member is followed by a comma alone. -/

/-- Separator written after a node-set member. -/
inductive Sep
  | comma
  | commaNL
  | nl
deriving DecidableEq

/-- Separator after index `j` out of `n` members, mirroring the branch
order of the Go loop: last member first, then the wrap condition. -/
def nsetSep (n j : ℕ) : Sep :=
  if j = n - 1 then Sep.nl
  else if j ≠ 0 ∧ j % 15 = 0 then Sep.commaNL
  else Sep.comma

/-- The token stream written for a node set: each member id is serialized
as `id + 1` with its separator. -/
def nsetTokens (ns : List ℕ) : List (ℕ × Sep) :=
  ns.enum.map (fun ji => (ji.2 + 1, nsetSep ns.length ji.1))

/-- Split a token stream into output lines: a comma keeps the line open,
any separator containing a newline ends it. -/
def linesAcc : List (ℕ × Sep) → List ℕ → List (List ℕ)
  | [], cur => if cur = [] then [] else [cur]
  | t :: ts, cur =>
    if t.2 = Sep.comma then linesAcc ts (cur ++ [t.1])
    else (cur ++ [t.1]) :: linesAcc ts []

/-- The member lines of a node set in the boundary file. -/
def nsetLines (ns : List ℕ) : List (List ℕ) :=
  linesAcc (nsetTokens ns) []

/-- Line lengths computed from separators alone. -/
def lensAcc : List Sep → ℕ → List ℕ
  | [], c => if c = 0 then [] else [c]
  | s :: ss, c =>
    if s = Sep.comma then lensAcc ss (c + 1)
    else (c + 1) :: lensAcc ss 0

theorem linesAcc_map_length (ts : List (ℕ × Sep)) :
    ∀ cur, (linesAcc ts cur).map List.length = lensAcc (ts.map Prod.snd) cur.length := by
  induction ts with
  | nil =>
    intro cur
    by_cases h : cur = []
    · simp [linesAcc, lensAcc, h]
    · have : cur.length ≠ 0 := fun hh => h (List.length_eq_zero.mp hh)
      simp [linesAcc, lensAcc, h, this]
  | cons t ts ih =>
    intro cur
    by_cases h : t.2 = Sep.comma
    · simp [linesAcc, lensAcc, h, ih]
    · simp [linesAcc, lensAcc, h, ih]

theorem nsetTokens_seps (ns : List ℕ) :
    (nsetTokens ns).map Prod.snd = (List.range ns.length).map (nsetSep ns.length) := by
  unfold nsetTokens
  rw [List.map_map]
  have h1 : (Prod.snd ∘ fun ji : ℕ × ℕ => (ji.2 + 1, nsetSep ns.length ji.1)) =
      (nsetSep ns.length ∘ Prod.fst) := rfl
  rw [h1, ← List.map_map, List.enum_map_fst]

/-- Number of members already on the open line when member `j` is about
to be written. -/
def curLen (j : ℕ) : ℕ :=
  if j ≤ 15 then j else (j - 1) % 15

theorem curLen_le (j : ℕ) : curLen j ≤ 15 := by
  unfold curLen
  split <;> omega

theorem lensAcc_bound (n : ℕ) :
    ∀ m j c, j + m = n → c = curLen j →
      ∀ L ∈ lensAcc ((List.range' j m).map (nsetSep n)) c, L ≤ 16 := by
  intro m
  induction m with
  | zero =>
    intro j c hjm hc L hL
    simp only [List.range', List.map_nil, lensAcc] at hL
    split at hL
    · simp at hL
    · rw [List.mem_singleton] at hL
      subst hL
      subst hc
      have := curLen_le j
      omega
  | succ m ih =>
    intro j c hjm hc L hL
    rw [show List.range' j (m + 1) = j :: List.range' (j + 1) m from rfl] at hL
    rw [List.map_cons] at hL
    by_cases hlast : j = n - 1
    · have hm0 : m = 0 := by omega
      subst hm0
      have hsep : nsetSep n j = Sep.nl := by simp [nsetSep, hlast]
      rw [hsep] at hL
      simp only [lensAcc, reduceCtorEq, if_false, List.range', List.map_nil] at hL
      simp at hL
      subst hL
      subst hc
      have := curLen_le j
      omega
    · by_cases hwrap : j ≠ 0 ∧ j % 15 = 0
      · have hsep : nsetSep n j = Sep.commaNL := by simp [nsetSep, hlast, hwrap]
        rw [hsep] at hL
        simp only [lensAcc, reduceCtorEq, if_false, List.mem_cons] at hL
        rcases hL with hL | hL
        · subst hL
          subst hc
          have := curLen_le j
          omega
        · have hc0 : (0 : ℕ) = curLen (j + 1) := by
            unfold curLen
            split <;> omega
          exact ih (j + 1) 0 (by omega) hc0 L hL
      · have hsep : nsetSep n j = Sep.comma := by
          unfold nsetSep
          rw [if_neg hlast, if_neg hwrap]
        rw [hsep] at hL
        simp only [lensAcc, if_pos rfl] at hL
        have hc1 : c + 1 = curLen (j + 1) := by
          subst hc
          unfold curLen
          rcases Decidable.em (j ≠ 0 ∧ j % 15 = 0) with hw | hw
          · exact absurd hw hwrap
          · split <;> split <;> omega
        exact ih (j + 1) (c + 1) (by omega) hc1 L hL

theorem nsetLines_lengths (ns : List ℕ) :
    (nsetLines ns).map List.length =
      lensAcc ((List.range ns.length).map (nsetSep ns.length)) 0 := by
  unfold nsetLines
  rw [linesAcc_map_length, nsetTokens_seps]
  rfl

/-- C4: no node-set member line in the boundary file exceeds 16 entries; a
node-set with exactly 17 members is wrapped after the 16th entry onto a new
line; and a node-set with 16 or fewer members is emitted as one line whose
final token carries a bare newline (no trailing continuation comma). -/
theorem nset_line_wrapping (ns : List ℕ) :
    (∀ L ∈ nsetLines ns, L.length ≤ 16) ∧
    (ns.length = 17 → (nsetLines ns).map List.length = [16, 1]) ∧
    (1 ≤ ns.length → ns.length ≤ 16 →
      (nsetLines ns).map List.length = [ns.length] ∧
      ((nsetTokens ns).map Prod.snd).getLast? = some Sep.nl) := by
  refine ⟨?_, ?_, ?_⟩
  · intro L hL
    have hmem : L.length ∈ (nsetLines ns).map List.length := List.mem_map_of_mem _ hL
    rw [nsetLines_lengths, List.range_eq_range'] at hmem
    refine lensAcc_bound ns.length ns.length 0 0 (by omega) ?_ L.length hmem
    unfold curLen
    simp
  · intro h17
    rw [nsetLines_lengths, h17]
    decide
  · intro h1 h16
    rw [nsetLines_lengths, nsetTokens_seps]
    set k := ns.length with hk
    clear_value k
    interval_cases k <;> exact ⟨by decide, by decide⟩

/-- Witness for C4 at the 17-member node set 0..16. -/
theorem nset_line_wrapping_witness :
    (nsetLines (List.range 17)).map List.length = [16, 1] :=
  (nset_line_wrapping (List.range 17)).2.1 (by decide)

/-! ## Mesh container, spatial index and point location -/

/-- Element type tag of the `buffer` package.
Modelled from the spec: the `buffer` package is absent from the sources;
spec section 3 lists the tags linear tetrahedron, quadratic tetrahedron,
linear hexahedron, quadratic-reduced hexahedron and unknown. -/
inductive ElType
  | c3d4
  | c3d10
  | c3d8
  | c3d20r
  | unknown
deriving DecidableEq

/-- A finite element as stored in the index buffer: an ordered node-id list
plus a type tag.
Modelled from the spec: `buffer.Element` is absent from the sources; spec
section 3 describes an element as an ordered list of vertex ids with a type
tag. -/
structure Element where
  nodes : List ℕ
  etype : ElType
deriving DecidableEq

/-- One cell of the spatial grid together with the elements it owns, in the
order `Grid.Iterate` visits them. -/
structure Voxel where
  x : ℤ
  y : ℤ
  z : ℤ
  els : List Element

/-- The spatial index.
Modelled from the spec: the `buffer.Grid` type is absent from the sources;
spec section 3 describes a 3D array of cells owning element lists, with a
per-axis length (`Len`), a cell size (`Dim`), the minimum corner of the
first voxel, cell lookup (`Get`) and iteration over all cells. -/
structure Grid where
  lenX : ℤ
  lenY : ℤ
  lenZ : ℤ
  dim : Vec3
  min0 : Vec3
  cells : ℤ → ℤ → ℤ → List Element
  iter : List Voxel

/-- The finite-element mesh `Fem` of `hex20.go`: a spatial index buffer and
a vertex buffer, here reduced to the id-to-point lookup that remains after
the build-phase hash table is destroyed. -/
structure Fem where
  grid : Grid
  verts : ℕ → Vec3

/-- Squared Euclidean distance.  The source compares Euclidean lengths
(`location.Sub(nodePos).Length()`); the square root is strictly monotone on
nonnegative reals, so comparing squared distances selects the same node. -/
def sqDist (a b : Vec3) : ℚ :=
  (a.x - b.x) ^ 2 + (a.y - b.y) ^ 2 + (a.z - b.z) ^ 2

/-- Comparison against the running minimum, which starts at positive
infinity (`math.Inf(1)`), modelled as `none`. -/
def ltMin (d : ℚ) : Option ℚ → Bool
  | none => true
  | some m => decide (d < m)

/-- The inner scan of `Fem.Locate` over the nodes of one element. -/
def scanNodes (m : Fem) (loc : Vec3) (acc : ℕ × Option ℚ) (nodes : List ℕ) :
    ℕ × Option ℚ :=
  nodes.foldl
    (fun acc node =>
      let d := sqDist loc (m.verts node)
      if ltMin d acc.2 then (node, some d) else acc)
    acc

/-- `Fem.Locate` from `hex20.go` lines 233-271: axis-wise floor division of
the query point against the grid origin and cell size, clamping an index to
`len - 1` only when it reaches `len`, then a linear scan of the nodes of
the elements in that cell for the minimum distance, starting from node id 0
and an infinite running minimum. -/
def Fem.locate (m : Fem) (loc : Vec3) : ℕ × ℤ × ℤ × ℤ :=
  let ix0 := ⌊(loc.x - m.grid.min0.x) / m.grid.dim.x⌋
  let iy0 := ⌊(loc.y - m.grid.min0.y) / m.grid.dim.y⌋
  let iz0 := ⌊(loc.z - m.grid.min0.z) / m.grid.dim.z⌋
  let ix := if ix0 ≥ m.grid.lenX then m.grid.lenX - 1 else ix0
  let iy := if iy0 ≥ m.grid.lenY then m.grid.lenY - 1 else iy0
  let iz := if iz0 ≥ m.grid.lenZ then m.grid.lenZ - 1 else iz0
  let r := (m.grid.cells ix iy iz).foldl
    (fun acc el => scanNodes m loc acc el.nodes) (0, none)
  (r.1, ix, iy, iz)

/-- A one-cell grid with origin 0, cell size 1 and no elements. -/
def gridC2 : Grid := ⟨1, 1, 1, ⟨1, 1, 1⟩, ⟨0, 0, 0⟩, fun _ _ _ => [], []⟩

/-- A mesh over `gridC2`. -/
def femC2 : Fem := ⟨gridC2, fun _ => ⟨0, 0, 0⟩⟩

/-! ## The `inp` exporter (`part_000`) -/

/-- A `*NODE` record: the serialized (1-based) id and the node position. -/
structure NodeRec where
  nid : ℕ
  pos : Vec3
deriving DecidableEq

/-- An `*ELEMENT` record: the serialized (1-based) element id and the
serialized (1-based) connectivity list. -/
structure ElRec where
  eid : ℕ
  conn : List ℕ
deriving DecidableEq

/-- The boundary-file block written for one restraint: the `*NSET` header
number (`restraint<i+1>`), the member token stream and the `*BOUNDARY`
degree-of-freedom records. -/
structure BouBlock where
  idx : ℕ
  members : List (ℕ × Sep)
  dofs : List ℕ
deriving DecidableEq

/-- Configuration errors reported by the exporter. -/
inductive Err
  | layerRange
  | restraintNoDof
deriving DecidableEq

/-- A single point constraint (`Restraint` of the `mesh` package): a
location, the lazily resolved voxels and the three fixed-DOF flags. -/
structure Restraint where
  loc : Vec3
  voxels : List (ℤ × ℤ × ℤ)
  isFixedX : Bool
  isFixedY : Bool
  isFixedZ : Bool

/-- The two per-element loops shared by `writeNodes`, `writeElements` and
`writeBoundary`: look up each node position in the mesh vertex buffer and
ask the temp vertex buffer for its id (`inp.TempVBuff.Id`), mutating the
temp buffer. -/
def idsOf (m : Fem) (ns : List ℕ) (vb : VB) : List (ℕ × Vec3) × VB :=
  match ns with
  | [] => ([], vb)
  | n :: t =>
    let v := m.verts n
    let r := vb.id v
    let rest := idsOf m t r.2
    ((r.1, v) :: rest.1, rest.2)

/-- The second loop of `writeNodes`: write a node record only when its
temp-buffer id is the next unwritten one (`ids[n]+1 == inp.nextNode`),
serializing the id as `ids[n]+1`. -/
def emitNodes : List (ℕ × Vec3) → ℕ → List NodeRec → ℕ × List NodeRec
  | [], nxt, out => (nxt, out)
  | (i, v) :: t, nxt, out =>
    if i + 1 = nxt then emitNodes t (nxt + 1) (out ++ [⟨i + 1, v⟩])
    else emitNodes t nxt out

/-- Per-element body of `writeNodes`. -/
def procElNodes (m : Fem) (el : Element) (st : VB × ℕ × List NodeRec) :
    VB × ℕ × List NodeRec :=
  let r := idsOf m el.nodes st.1
  let e := emitNodes r.1 st.2.1 st.2.2
  (r.2, e.1, e.2)

/-- `Inp.writeNodes` (`part_000` lines 200-251): iterate over all voxels,
skip those outside the layer range `[layerStart, layerEnd)`, and for each
element write the not-yet-written nodes.  `nextNode` starts at 1.  Returns
the node records and the temp vertex buffer state. -/
def writeNodes (m : Fem) (start stop : ℤ) : List NodeRec × VB :=
  let r := m.grid.iter.foldl
    (fun st vox =>
      if start ≤ vox.z ∧ vox.z < stop then
        vox.els.foldl (fun st el => procElNodes m el st) st
      else st)
    (VB.empty, 1, [])
  (r.2.2, r.1)

/-- Per-element body of `writeElements`: compute the temp-buffer ids of the
element nodes, then write one record to the file of the element type with
element id `eleID+1` and connectivity `ids[...]+1`; an element of unknown
type writes nothing; the shared element counter is incremented in every
case. -/
def procEl (m : Fem) (el : Element) (st : VB × ℕ × List (ElType × ElRec)) :
    VB × ℕ × List (ElType × ElRec) :=
  let r := idsOf m el.nodes st.1
  let conn := r.1.map (fun p => p.1 + 1)
  let c := st.2.1
  let out := st.2.2
  match el.etype with
  | ElType.unknown => (r.2, c + 1, out)
  | ty => (r.2, c + 1, out ++ [(ty, ⟨c + 1, conn⟩)])

/-- `Inp.writeElements` (`part_000` lines 253-358): iterate over all voxels
in the layer range and process each element, threading the temp vertex
buffer and the shared element-id counter `eleID` (starting at 0) through
all four per-type outputs.  The chronological output list records which
per-type file each record is written to. -/
def writeElements (m : Fem) (start stop : ℤ) (vb0 : VB) :
    List (ElType × ElRec) × VB × ℕ :=
  let r := m.grid.iter.foldl
    (fun st vox =>
      if start ≤ vox.z ∧ vox.z < stop then
        vox.els.foldl (fun st el => procEl m el st) st
      else st)
    (vb0, 0, [])
  (r.2.2, r.1, r.2.1)

/-- The node-set collection of `writeBoundary`: for every resolved voxel of
the restraint, take the elements in that grid cell and append the
temp-buffer id of every node. -/
def collectNodeSet (m : Fem) (voxs : List (ℤ × ℤ × ℤ)) (vb : VB) :
    List ℕ × VB :=
  match voxs with
  | [] => ([], vb)
  | vox :: t =>
    let r := (m.grid.cells vox.1 vox.2.1 vox.2.2).foldl
      (fun (acc : List ℕ × VB) el =>
        let r2 := idsOf m el.nodes acc.2
        (acc.1 ++ r2.1.map (fun p => p.1), r2.2))
      ([], vb)
    let rest := collectNodeSet m t r.2
    (r.1 ++ rest.1, rest.2)

/-- The `*BOUNDARY` degree-of-freedom records of one restraint, mirroring
the if-else chain of `writeBoundary` (`part_000` lines 443-498). -/
def dofList (x y z : Bool) : List ℕ :=
  if x && y && z then [1, 2, 3]
  else if x && y && !z then [1, 2]
  else if !x && y && z then [2, 3]
  else if x && !y && z then [1, 3]
  else if x && !y && !z then [1]
  else if !x && y && !z then [2]
  else if !x && !y && z then [3]
  else []

/-- A restraint with no fixed degree of freedom at all. -/
def allFree (r : Restraint) : Bool :=
  !r.isFixedX && !r.isFixedY && !r.isFixedZ

/-- The restraint loop of `Inp.writeBoundary` (`part_000` lines 377-499):
for restraint `i` (0-based), first check the fixed-DOF flags and abort the
whole export with an error when none is set — content already emitted for
earlier restraints stays in the boundary file; otherwise collect the node
set, emit its `*NSET` block with the member token stream and the DOF
records, and continue. -/
def writeBoundaryGo (m : Fem) (rs : List Restraint) (i : ℕ) (vb : VB) :
    List BouBlock × VB × Option Err :=
  match rs with
  | [] => ([], vb, none)
  | r :: t =>
    if allFree r then ([], vb, some Err.restraintNoDof)
    else
      let c := collectNodeSet m r.voxels vb
      let blk : BouBlock :=
        ⟨i + 1, nsetTokens c.1, dofList r.isFixedX r.isFixedY r.isFixedZ⟩
      let rest := writeBoundaryGo m t (i + 1) c.2
      (blk :: rest.1, rest.2.1, rest.2.2)

/-- The voxel-resolution pre-pass of `writeBoundary` (`part_000` lines
369-375): a restraint keeps caller-supplied voxels and otherwise resolves
them from its location; `resolve` stands for `Mesh.VoxelsIntersecting`,
whose code lives in the missing `buffer` package. -/
def resolveRestraints (rs : List Restraint) (resolve : Vec3 → List (ℤ × ℤ × ℤ)) :
    List Restraint :=
  rs.map (fun r => if r.voxels.length < 1 then { r with voxels := resolve r.loc } else r)

/-- The files produced by one export, plus the error result returned to the
caller.  Footer, load and gravity content carries no claim and is omitted. -/
structure ExportOut where
  nodes : List NodeRec
  els : List (ElType × ElRec)
  bou : List BouBlock
  err : Option Err

/-- `Inp.Write` (`part_000` lines 106-177) with the `writeHeader` layer
check (lines 179-198): an invalid layer range aborts before nodes,
elements or boundary content is produced; otherwise nodes, elements and
boundary files are written in that order, sharing one temp vertex buffer,
and only then is the per-restraint configuration check reached. -/
def inpWrite (m : Fem) (start stop : ℤ) (rs : List Restraint)
    (resolve : Vec3 → List (ℤ × ℤ × ℤ)) : ExportOut :=
  if 0 ≤ start ∧ start < stop ∧ stop ≤ m.grid.lenZ then
    let n := writeNodes m start stop
    let e := writeElements m start stop n.2
    let b := writeBoundaryGo m (resolveRestraints rs resolve) 0 e.2.1
    ⟨n.1, e.1, b.1, b.2.2⟩
  else ⟨[], [], [], some Err.layerRange⟩

/-! ## Concrete meshes used by witnesses and counterexamples -/

/-- A linear tetrahedron on nodes 0-3. -/
def elEx : Element := ⟨[0, 1, 2, 3], ElType.c3d4⟩

/-- An element of unknown type on nodes 0-3. -/
def elUnk : Element := ⟨[0, 1, 2, 3], ElType.unknown⟩

/-- A one-voxel grid holding the single tetrahedron `elEx`. -/
def gridEx : Grid :=
  ⟨1, 1, 1, ⟨1, 1, 1⟩, ⟨0, 0, 0⟩,
    fun x y z => if x = 0 ∧ y = 0 ∧ z = 0 then [elEx] else [],
    [⟨0, 0, 0, [elEx]⟩]⟩

/-- Concrete vertex positions for nodes 0-3. -/
def vertsEx : ℕ → Vec3 :=
  fun n =>
    if n = 0 then ⟨0, 0, 0⟩
    else if n = 1 then ⟨1, 0, 0⟩
    else if n = 2 then ⟨0, 1, 0⟩
    else ⟨0, 0, 1⟩

/-- A mesh with one linear tetrahedron in one voxel. -/
def femEx : Fem := ⟨gridEx, vertsEx⟩

/-- A one-voxel grid holding an unknown-type element followed by a
tetrahedron. -/
def gridUnk : Grid :=
  ⟨1, 1, 1, ⟨1, 1, 1⟩, ⟨0, 0, 0⟩,
    fun x y z => if x = 0 ∧ y = 0 ∧ z = 0 then [elUnk, elEx] else [],
    [⟨0, 0, 0, [elUnk, elEx]⟩]⟩

/-- A mesh whose first element has unknown type. -/
def femUnk : Fem := ⟨gridUnk, vertsEx⟩

/-- A restraint fixing the X degree of freedom, with pre-supplied voxels. -/
def goodR : Restraint := ⟨⟨0, 0, 0⟩, [(0, 0, 0)], true, false, false⟩

/-- A restraint with no fixed degree of freedom. -/
def badR : Restraint := ⟨⟨0, 0, 0⟩, [(0, 0, 0)], false, false, false⟩

/-- C2 (evaluation at the failing input): on a one-cell grid with origin 0
and cell size 1, the query point (-1, 0, 0) below the grid origin is
resolved to cell coordinate -1 on the X axis — the index computed by
`Fem.Locate` is clamped only against the upper bound, so it does not lie
within [0, gridLen) as the claim requires. -/
theorem locate_below_origin_eval :
    (femC2.locate ⟨-1, 0, 0⟩).2.1 = -1 ∧
    ¬(0 ≤ (femC2.locate ⟨-1, 0, 0⟩).2.1) := by
  have h : (femC2.locate ⟨-1, 0, 0⟩).2.1 = -1 := by
    simp only [Fem.locate, femC2, gridC2]
    norm_num
  rw [h]
  norm_num

/-- C8: an export whose layer range violates
`0 ≤ layerStart < layerEnd ≤ total layers` returns the layer-range
configuration error and produces no node, element or boundary content. -/
theorem inpWrite_invalid_layer_range (m : Fem) (start stop : ℤ)
    (rs : List Restraint) (resolve : Vec3 → List (ℤ × ℤ × ℤ))
    (h : ¬(0 ≤ start ∧ start < stop ∧ stop ≤ m.grid.lenZ)) :
    (inpWrite m start stop rs resolve).err = some Err.layerRange ∧
    (inpWrite m start stop rs resolve).els = [] ∧
    (inpWrite m start stop rs resolve).nodes = [] := by
  unfold inpWrite
  rw [if_neg h]
  exact ⟨rfl, rfl, rfl⟩

/-- Witness for C8: exporting the empty layer range [0, 0) is a reported
configuration error and produces zero elements. -/
theorem inpWrite_invalid_layer_range_witness :
    (inpWrite femEx 0 0 [] (fun _ => [])).err = some Err.layerRange ∧
    (inpWrite femEx 0 0 [] (fun _ => [])).els = [] ∧
    (inpWrite femEx 0 0 [] (fun _ => [])).nodes = [] :=
  inpWrite_invalid_layer_range femEx 0 0 [] (fun _ => []) (by decide)

/-! ## Node and element serialization (C9, C10) -/

/-- The node records for the vertices of a temp buffer starting at internal
id `k`: the record of internal id `i` carries serialized id `i + 1`. -/
def recsAux (k : ℕ) : List Vec3 → List NodeRec
  | [] => []
  | v :: t => ⟨k + 1, v⟩ :: recsAux (k + 1) t

theorem recsAux_append (A B : List Vec3) :
    ∀ k, recsAux k (A ++ B) = recsAux k A ++ recsAux (k + A.length) B := by
  induction A with
  | nil =>
    intro k
    simp [recsAux]
  | cons a A ih =>
    intro k
    have h1 : recsAux k ((a :: A) ++ B) = (⟨k + 1, a⟩ : NodeRec) :: recsAux (k + 1) (A ++ B) := rfl
    have h2 : recsAux k (a :: A) = (⟨k + 1, a⟩ : NodeRec) :: recsAux (k + 1) A := rfl
    rw [h1, h2, ih (k + 1), List.cons_append, List.length_cons]
    rw [show k + 1 + A.length = k + (A.length + 1) from by omega]

theorem recsAux_get? (l : List Vec3) :
    ∀ k j, (recsAux k l).get? j = (l.get? j).map (fun v => ⟨k + j + 1, v⟩) := by
  induction l with
  | nil =>
    intro k j
    simp [recsAux]
  | cons v t ih =>
    intro k j
    cases j with
    | zero => simp [recsAux]
    | succ j' =>
      show (recsAux (k + 1) t).get? j' = (t.get? j').map (fun v => ⟨k + (j' + 1) + 1, v⟩)
      rw [ih (k + 1) j']
      cases h : t.get? j' with
      | none => simp
      | some w =>
        simp only [Option.map_some', Option.some.injEq, NodeRec.mk.injEq]
        exact ⟨by omega, trivial⟩

theorem idxOf?_lt_length {p : Vec3} {l : List Vec3} {i : ℕ}
    (h : idxOf? p l = some i) : i < l.length := by
  have := idxOf?_get h
  exact (List.get?_eq_some.mp this).1

theorem get?_some_append {l t : List Vec3} {i : ℕ} {v : Vec3}
    (h : l.get? i = some v) : (l ++ t).get? i = some v := by
  rw [List.get?_append (List.get?_eq_some.mp h).1]
  exact h

/-- Core lemma about the per-element node loops: `idsOf` preserves the temp
buffer invariant, only appends to the vertex list, returns pairs whose id
is the index of the vertex in the final list, and composing it with the
conditional emission loop of `writeNodes` extends the node file by exactly
the records of the fresh vertices, keeping `nextNode` one past the buffer
size. -/
theorem idsOf_spec (m : Fem) (ns : List ℕ) :
    ∀ vb : VB, vb.Inv →
      (idsOf m ns vb).2.Inv ∧
      (∃ t, (idsOf m ns vb).2.V = vb.V ++ t) ∧
      (∀ p ∈ (idsOf m ns vb).1, idxOf? p.2 (idsOf m ns vb).2.V = some p.1) ∧
      (∀ out : List NodeRec,
        emitNodes (idsOf m ns vb).1 (vb.V.length + 1) out =
          ((idsOf m ns vb).2.V.length + 1,
            out ++ recsAux vb.V.length ((idsOf m ns vb).2.V.drop vb.V.length))) := by
  induction ns with
  | nil =>
    intro vb h
    refine ⟨h, ⟨[], by simp [idsOf]⟩, by simp [idsOf], ?_⟩
    intro out
    simp [idsOf, emitNodes, List.drop_length, recsAux]
  | cons n t ih =>
    intro vb h
    obtain ⟨hInv1, ⟨t1, ht1⟩, hidx1⟩ := VB.id_spec vb (m.verts n) h
    obtain ⟨hInv2, ⟨t2, ht2⟩, hmem2, hemit2⟩ := ih (vb.id (m.verts n)).2 hInv1
    have hshape : idsOf m (n :: t) vb =
        (((vb.id (m.verts n)).1, m.verts n) :: (idsOf m t (vb.id (m.verts n)).2).1,
          (idsOf m t (vb.id (m.verts n)).2).2) := rfl
    rw [hshape]
    refine ⟨hInv2, ⟨t1 ++ t2, by rw [ht2, ht1, List.append_assoc]⟩, ?_, ?_⟩
    · intro p hp
      rcases List.mem_cons.mp hp with hp | hp
      · subst hp
        rw [ht2]
        exact idxOf?_append_left hidx1
      · exact hmem2 p hp
    · intro out
      cases hc : lookupA vb.lookup (m.verts n) with
      | some i =>
        have hr : vb.id (m.verts n) = (i, vb) := by simp [VB.id, hc]
        have hlt : i < vb.V.length := by
          have h1 := hidx1
          rw [hr] at h1
          exact idxOf?_lt_length h1
        simp only [hr] at hemit2 ⊢
        simp only [emitNodes]
        rw [if_neg (by omega)]
        exact hemit2 out
      | none =>
        have hr : vb.id (m.verts n) =
            (vb.V.length, ⟨vb.V ++ [m.verts n], (m.verts n, vb.V.length) :: vb.lookup⟩) := by
          simp [VB.id, hc]
        simp only [hr] at hemit2 ht2 ⊢
        simp only [emitNodes, if_true]
        simp only [List.length_append, List.length_singleton] at hemit2
        rw [hemit2]
        simp only [Prod.mk.injEq, true_and]
        rw [ht2]
        have hd1 : (((vb.V ++ [m.verts n]) ++ t2).drop (vb.V.length + 1)) = t2 := by
          refine List.drop_left' ?_
          simp
        have hd2 : (((vb.V ++ [m.verts n]) ++ t2).drop vb.V.length) = m.verts n :: t2 := by
          rw [List.append_assoc]
          have : (vb.V ++ ([m.verts n] ++ t2)).drop vb.V.length = [m.verts n] ++ t2 :=
            List.drop_left' rfl
          simpa using this
        rw [hd1, hd2]
        show out ++ [(⟨vb.V.length + 1, m.verts n⟩ : NodeRec)] ++
            recsAux (vb.V.length + 1) t2 =
          out ++ (⟨vb.V.length + 1, m.verts n⟩ : NodeRec) :: recsAux (vb.V.length + 1) t2
        simp

/-- Generic fold preservation. -/
theorem foldl_pres {α β : Type} (f : β → α → β) (P : β → Prop)
    (hstep : ∀ b a, P b → P (f b a)) :
    ∀ (l : List α) (b : β), P b → P (l.foldl f b) := by
  intro l
  induction l with
  | nil => intro b h; exact h
  | cons a l ih => intro b h; exact ih (f b a) (hstep b a h)

/-- Invariant of the `writeNodes` fold state: the temp buffer is
well-formed, `nextNode` is one past the buffer size, and the node file so
far enumerates exactly the buffer vertices, each with serialized id equal
to its internal id plus one. -/
def NodesStInv (st : VB × ℕ × List NodeRec) : Prop :=
  st.1.Inv ∧ st.2.1 = st.1.V.length + 1 ∧ st.2.2 = recsAux 0 st.1.V

theorem procElNodes_inv (m : Fem) (el : Element) (st : VB × ℕ × List NodeRec)
    (h : NodesStInv st) : NodesStInv (procElNodes m el st) := by
  obtain ⟨hInv, hn, ho⟩ := h
  obtain ⟨hInv2, ⟨t, ht⟩, _, hemit⟩ := idsOf_spec m el.nodes st.1 hInv
  have he := hemit st.2.2
  rw [← hn] at he
  refine ⟨hInv2, ?_, ?_⟩
  · show (emitNodes (idsOf m el.nodes st.1).1 st.2.1 st.2.2).1 =
      (idsOf m el.nodes st.1).2.V.length + 1
    rw [he]
  · show (emitNodes (idsOf m el.nodes st.1).1 st.2.1 st.2.2).2 =
      recsAux 0 (idsOf m el.nodes st.1).2.V
    rw [he, ho, ht, List.drop_left, recsAux_append]
    simp

theorem writeNodes_spec (m : Fem) (start stop : ℤ) :
    (writeNodes m start stop).2.Inv ∧
    (writeNodes m start stop).1 = recsAux 0 (writeNodes m start stop).2.V := by
  have h0 : NodesStInv (VB.empty, 1, []) := ⟨VB.empty_inv, rfl, rfl⟩
  have hstep : ∀ st vox, NodesStInv st →
      NodesStInv ((fun st (vox : Voxel) =>
        if start ≤ vox.z ∧ vox.z < stop then
          vox.els.foldl (fun st el => procElNodes m el st) st
        else st) st vox) := by
    intro st vox h
    by_cases hz : start ≤ vox.z ∧ vox.z < stop
    · show NodesStInv (if start ≤ vox.z ∧ vox.z < stop then _ else st)
      rw [if_pos hz]
      exact foldl_pres _ NodesStInv (fun b a hb => procElNodes_inv m a b hb) vox.els st h
    · show NodesStInv (if start ≤ vox.z ∧ vox.z < stop then _ else st)
      rw [if_neg hz]
      exact h
  have h := foldl_pres _ NodesStInv hstep m.grid.iter (VB.empty, 1, []) h0
  exact ⟨h.1, h.2.2⟩

/-- Connectivity invariant of the `writeElements` fold state: the temp
buffer is well-formed and every serialized connectivity entry of every
record written so far is an internal temp-buffer id plus one. -/
def ConnInv (st : VB × ℕ × List (ElType × ElRec)) : Prop :=
  st.1.Inv ∧
  ∀ r ∈ st.2.2, ∀ e ∈ r.2.conn, ∃ i, e = i + 1 ∧ ∃ v, st.1.V.get? i = some v

/-- Element-id invariant of the `writeElements` fold state: serialized
element ids are between 1 and the shared counter, and strictly increasing
in emission order. -/
def EidInv (st : VB × ℕ × List (ElType × ElRec)) : Prop :=
  (∀ d ∈ st.2.2.map (fun r => r.2.eid), 1 ≤ d ∧ d ≤ st.2.1) ∧
  (st.2.2.map (fun r => r.2.eid)).Pairwise (· < ·)

/-- Consecutive-id invariant, maintained while no unknown-type element has
been encountered. -/
def EidConsec (st : VB × ℕ × List (ElType × ElRec)) : Prop :=
  st.2.2.map (fun r => r.2.eid) = List.range' 1 st.2.1

theorem procEl_connInv (m : Fem) (el : Element) (st : VB × ℕ × List (ElType × ElRec))
    (h : ConnInv st) : ConnInv (procEl m el st) := by
  obtain ⟨hInv, hconn⟩ := h
  obtain ⟨hInv2, ⟨t, ht⟩, hmem, _⟩ := idsOf_spec m el.nodes st.1 hInv
  have hold : ∀ r ∈ st.2.2, ∀ e ∈ r.2.conn, ∃ i, e = i + 1 ∧
      ∃ v, (idsOf m el.nodes st.1).2.V.get? i = some v := by
    intro r hr e he
    obtain ⟨i, hei, v, hv⟩ := hconn r hr e he
    refine ⟨i, hei, v, ?_⟩
    rw [ht]
    exact get?_some_append hv
  have hnew : ∀ e ∈ (idsOf m el.nodes st.1).1.map (fun p => p.1 + 1),
      ∃ i, e = i + 1 ∧ ∃ v, (idsOf m el.nodes st.1).2.V.get? i = some v := by
    intro e he
    obtain ⟨p, hp, rfl⟩ := List.mem_map.mp he
    exact ⟨p.1, rfl, p.2, idxOf?_get (hmem p hp)⟩
  cases hty : el.etype
  case unknown =>
    simp only [procEl, hty]
    exact ⟨hInv2, hold⟩
  all_goals
    simp only [procEl, hty]
    refine ⟨hInv2, ?_⟩
    intro r hr e he
    rcases List.mem_append.mp hr with hr | hr
    · exact hold r hr e he
    · rw [List.mem_singleton] at hr
      subst hr
      exact hnew e he

theorem procEl_eidInv (m : Fem) (el : Element) (st : VB × ℕ × List (ElType × ElRec))
    (h : EidInv st) : EidInv (procEl m el st) := by
  obtain ⟨hbnd, hpw⟩ := h
  cases hty : el.etype
  case unknown =>
    simp only [procEl, hty]
    refine ⟨?_, hpw⟩
    dsimp only
    intro d hd
    have := hbnd d hd
    omega
  all_goals
    simp only [procEl, hty]
    constructor
    · dsimp only
      intro d hd
      rw [List.map_append] at hd
      rcases List.mem_append.mp hd with hd | hd
      · have := hbnd d hd
        omega
      · simp at hd
        omega
    · dsimp only
      rw [List.map_append, List.pairwise_append]
      refine ⟨hpw, by simp, ?_⟩
      intro a ha b hb
      simp at hb
      have := hbnd a ha
      omega

/-- Appending the next value to `range'`. -/
theorem range'_snoc (s n : ℕ) : List.range' s (n + 1) = List.range' s n ++ [s + n] := by
  induction n generalizing s with
  | zero => simp [List.range']
  | succ n ih =>
    show s :: List.range' (s + 1) (n + 1) = (s :: List.range' (s + 1) n) ++ [s + (n + 1)]
    rw [ih (s + 1), List.cons_append]
    rw [show s + 1 + n = s + (n + 1) from by omega]

theorem procEl_eidConsec (m : Fem) (el : Element) (st : VB × ℕ × List (ElType × ElRec))
    (hknown : el.etype ≠ ElType.unknown) (h : EidConsec st) : EidConsec (procEl m el st) := by
  cases hty : el.etype
  case unknown => exact absurd hty hknown
  all_goals
    simp only [procEl, hty]
    unfold EidConsec
    dsimp only
    unfold EidConsec at h
    rw [List.map_append, h, range'_snoc, Nat.add_comm 1 st.2.1]
    rfl

theorem procEl_counter (m : Fem) (el : Element) (st : VB × ℕ × List (ElType × ElRec)) :
    (procEl m el st).2.1 = st.2.1 + 1 := by
  cases hty : el.etype <;> simp [procEl, hty]

/-- Number of elements inside the exported layer range, in iteration
order. -/
def countInRange (m : Fem) (start stop : ℤ) : ℕ :=
  m.grid.iter.foldl
    (fun acc vox => if start ≤ vox.z ∧ vox.z < stop then acc + vox.els.length else acc) 0

theorem foldlEls_counter (m : Fem) (els : List Element) :
    ∀ st : VB × ℕ × List (ElType × ElRec),
      (els.foldl (fun st el => procEl m el st) st).2.1 = st.2.1 + els.length := by
  induction els with
  | nil =>
    intro st
    simp
  | cons e els ih =>
    intro st
    rw [List.foldl_cons, ih (procEl m e st), procEl_counter, List.length_cons]
    omega

theorem count_shift (start stop : ℤ) (voxs : List Voxel) :
    ∀ a : ℕ,
      voxs.foldl
        (fun acc vox => if start ≤ vox.z ∧ vox.z < stop then acc + vox.els.length else acc) a =
      a + voxs.foldl
        (fun acc vox => if start ≤ vox.z ∧ vox.z < stop then acc + vox.els.length else acc) 0 := by
  induction voxs with
  | nil =>
    intro a
    simp
  | cons v voxs ih =>
    intro a
    rw [List.foldl_cons, List.foldl_cons]
    by_cases hz : start ≤ v.z ∧ v.z < stop
    · rw [if_pos hz, if_pos hz, ih (a + v.els.length), ih (0 + v.els.length)]
      omega
    · rw [if_neg hz, if_neg hz, ih a]

theorem writeElements_counter (m : Fem) (start stop : ℤ) (vb0 : VB) :
    (writeElements m start stop vb0).2.2 = countInRange m start stop := by
  suffices hgen : ∀ (voxs : List Voxel) (st : VB × ℕ × List (ElType × ElRec)),
      (voxs.foldl
        (fun st vox =>
          if start ≤ vox.z ∧ vox.z < stop then
            vox.els.foldl (fun st el => procEl m el st) st
          else st) st).2.1 =
      st.2.1 + voxs.foldl
        (fun acc vox => if start ≤ vox.z ∧ vox.z < stop then acc + vox.els.length else acc) 0 by
    show (m.grid.iter.foldl _ (vb0, 0, [])).2.1 = countInRange m start stop
    rw [hgen m.grid.iter (vb0, 0, [])]
    simp [countInRange]
  intro voxs
  induction voxs with
  | nil =>
    intro st
    simp
  | cons v voxs ih =>
    intro st
    rw [List.foldl_cons, List.foldl_cons, ih]
    by_cases hz : start ≤ v.z ∧ v.z < stop
    · rw [if_pos hz, if_pos hz, foldlEls_counter,
        count_shift start stop voxs (0 + v.els.length)]
      omega
    · rw [if_neg hz, if_neg hz]

/-- Voxel-level fold step of `writeElements` preserves any invariant that
`procEl` preserves. -/
theorem foldlVox_pres (m : Fem) (start stop : ℤ)
    (P : VB × ℕ × List (ElType × ElRec) → Prop)
    (hstep : ∀ st el, P st → P (procEl m el st)) :
    ∀ st vox, P st →
      P ((fun st (vox : Voxel) =>
        if start ≤ vox.z ∧ vox.z < stop then
          vox.els.foldl (fun st el => procEl m el st) st
        else st) st vox) := by
  intro st vox h
  by_cases hz : start ≤ vox.z ∧ vox.z < stop
  · show P (if start ≤ vox.z ∧ vox.z < stop then _ else st)
    rw [if_pos hz]
    exact foldl_pres _ P (fun b a hb => hstep b a hb) vox.els st h
  · show P (if start ≤ vox.z ∧ vox.z < stop then _ else st)
    rw [if_neg hz]
    exact h

theorem writeElements_conn (m : Fem) (start stop : ℤ) (vb0 : VB) (h0 : vb0.Inv) :
    (writeElements m start stop vb0).2.1.Inv ∧
    ∀ r ∈ (writeElements m start stop vb0).1, ∀ e ∈ r.2.conn,
      ∃ i, e = i + 1 ∧ ∃ v, (writeElements m start stop vb0).2.1.V.get? i = some v := by
  have h := foldl_pres _ ConnInv
    (foldlVox_pres m start stop ConnInv (fun st el hs => procEl_connInv m el st hs))
    m.grid.iter (vb0, 0, []) ⟨h0, by simp⟩
  exact ⟨h.1, h.2⟩

theorem writeElements_eid (m : Fem) (start stop : ℤ) (vb0 : VB) :
    (∀ d ∈ (writeElements m start stop vb0).1.map (fun r => r.2.eid),
      1 ≤ d ∧ d ≤ (writeElements m start stop vb0).2.2) ∧
    ((writeElements m start stop vb0).1.map (fun r => r.2.eid)).Pairwise (· < ·) := by
  have h := foldl_pres _ EidInv
    (foldlVox_pres m start stop EidInv (fun st el hs => procEl_eidInv m el st hs))
    m.grid.iter (vb0, 0, []) ⟨by simp, by simp⟩
  exact ⟨h.1, h.2⟩

theorem foldlEls_consec (m : Fem) (els : List Element)
    (hk : ∀ el ∈ els, el.etype ≠ ElType.unknown) :
    ∀ st, EidConsec st → EidConsec (els.foldl (fun st el => procEl m el st) st) := by
  induction els with
  | nil =>
    intro st h
    exact h
  | cons e els ih =>
    intro st h
    rw [List.foldl_cons]
    exact ih (fun el hel => hk el (List.mem_cons_of_mem e hel)) _
      (procEl_eidConsec m e st (hk e (List.mem_cons_self e els)) h)

theorem foldlVox_consec (m : Fem) (start stop : ℤ) (voxs : List Voxel)
    (hk : ∀ vox ∈ voxs, start ≤ vox.z → vox.z < stop →
      ∀ el ∈ vox.els, el.etype ≠ ElType.unknown) :
    ∀ st, EidConsec st →
      EidConsec (voxs.foldl
        (fun st vox =>
          if start ≤ vox.z ∧ vox.z < stop then
            vox.els.foldl (fun st el => procEl m el st) st
          else st) st) := by
  induction voxs with
  | nil =>
    intro st h
    exact h
  | cons v voxs ih =>
    intro st h
    rw [List.foldl_cons]
    refine ih (fun vox hv => hk vox (List.mem_cons_of_mem v hv)) _ ?_
    by_cases hz : start ≤ v.z ∧ v.z < stop
    · rw [if_pos hz]
      exact foldlEls_consec m v.els
        (hk v (List.mem_cons_self v voxs) hz.1 hz.2) st h
    · rw [if_neg hz]
      exact h

/-- C10 (amended): the element ids written by `writeElements` are drawn
from the single shared counter: the ids across all four per-type files are
strictly increasing in emission order (hence pairwise distinct), the final
counter value equals the number of elements in the exported layer range,
and when every element in the range has a known type the ids are exactly
the consecutive sequence 1..total-element-count in iteration order.
An unknown-type element consumes a counter value without producing a
record, which leaves a gap in the serialized ids. -/
theorem element_ids_shared_counter (m : Fem) (start stop : ℤ) (vb0 : VB) :
    ((writeElements m start stop vb0).1.map (fun r => r.2.eid)).Pairwise (· < ·) ∧
    (writeElements m start stop vb0).2.2 = countInRange m start stop ∧
    ((∀ vox ∈ m.grid.iter, start ≤ vox.z → vox.z < stop →
        ∀ el ∈ vox.els, el.etype ≠ ElType.unknown) →
      (writeElements m start stop vb0).1.map (fun r => r.2.eid) =
        List.range' 1 (writeElements m start stop vb0).2.2) := by
  refine ⟨(writeElements_eid m start stop vb0).2, writeElements_counter m start stop vb0, ?_⟩
  intro hk
  exact foldlVox_consec m start stop m.grid.iter hk (vb0, 0, []) rfl

/-- Witness for C10 on the one-tetrahedron mesh: all element types are
known, so the serialized ids are exactly 1..count. -/
theorem element_ids_shared_counter_witness :
    (writeElements femEx 0 1 VB.empty).1.map (fun r => r.2.eid) =
      List.range' 1 (writeElements femEx 0 1 VB.empty).2.2 :=
  (element_ids_shared_counter femEx 0 1 VB.empty).2.2 (by decide)

/-- Counterexample to C10 as stated: on a mesh whose first element has
unknown type, the unknown element consumes element id 1 without writing a
record, so the ids over the four files are [2] — not the consecutive
sequence starting at 1, neither for the total element count (2) nor for
the record count (1). -/
theorem element_ids_gap_unknown_cex :
    (writeElements femUnk 0 1 VB.empty).1.map (fun r => r.2.eid) = [2] ∧
    (writeElements femUnk 0 1 VB.empty).2.2 = 2 ∧
    ¬((writeElements femUnk 0 1 VB.empty).1.map (fun r => r.2.eid) = List.range' 1 2) ∧
    ¬((writeElements femUnk 0 1 VB.empty).1.map (fun r => r.2.eid) =
        List.range' 1 (writeElements femUnk 0 1 VB.empty).1.length) := by
  decide

/-- C9: every id serialized by the exporter is 1-based.  The node file
enumerates the temp vertex buffer: the j-th node record carries serialized
id `j + 1` and the position of internal node id `j`.  Every element
record, for all four element types, has a serialized element id of at
least 1, and every connectivity entry is an internal temp-buffer node id
plus one. -/
theorem serialized_ids_one_based (m : Fem) (start stop : ℤ) :
    (∀ j rec, (writeNodes m start stop).1.get? j = some rec →
      rec.nid = j + 1 ∧ (writeNodes m start stop).2.V.get? j = some rec.pos) ∧
    (∀ vb0 : VB, vb0.Inv →
      (∀ r ∈ (writeElements m start stop vb0).1,
        ∃ i, r.2.eid = i + 1 ∧ i < (writeElements m start stop vb0).2.2) ∧
      ∀ r ∈ (writeElements m start stop vb0).1, ∀ e ∈ r.2.conn,
        ∃ i, e = i + 1 ∧ ∃ v, (writeElements m start stop vb0).2.1.V.get? i = some v) := by
  constructor
  · intro j rec hj
    rw [(writeNodes_spec m start stop).2, recsAux_get?] at hj
    cases hv : (writeNodes m start stop).2.V.get? j with
    | none =>
      rw [hv] at hj
      simp at hj
    | some v =>
      rw [hv] at hj
      simp only [Option.map_some', Option.some.injEq] at hj
      subst hj
      refine ⟨?_, ?_⟩
      · show 0 + j + 1 = j + 1
        omega
      · rfl
  · intro vb0 h0
    refine ⟨?_, (writeElements_conn m start stop vb0 h0).2⟩
    intro r hr
    have hb := (writeElements_eid m start stop vb0).1 r.2.eid
      (List.mem_map_of_mem (fun r => r.2.eid) hr)
    exact ⟨r.2.eid - 1, by omega, by omega⟩

/-- Witness for C9: the first node record of the one-tetrahedron export
has serialized id 1 for internal id 0. -/
theorem serialized_ids_one_based_witness :
    (NodeRec.mk 1 ⟨0, 0, 0⟩).nid = 0 + 1 ∧
    (writeNodes femEx 0 1).2.V.get? 0 = some (NodeRec.mk 1 ⟨0, 0, 0⟩).pos :=
  (serialized_ids_one_based femEx 0 1).1 0 (NodeRec.mk 1 ⟨0, 0, 0⟩) (by decide)

/-! ## Boundary export and the no-fixed-DOF configuration error (C1) -/

theorem allFree_resolveElem (r : Restraint) (f : Vec3 → List (ℤ × ℤ × ℤ)) :
    allFree (if r.voxels.length < 1 then { r with voxels := f r.loc } else r) = allFree r := by
  split <;> rfl

theorem takeWhile_resolve_len (f : Vec3 → List (ℤ × ℤ × ℤ)) (rs : List Restraint) :
    ((resolveRestraints rs f).takeWhile (fun r => !(allFree r))).length =
      (rs.takeWhile (fun r => !(allFree r))).length := by
  induction rs with
  | nil => rfl
  | cons r t ih =>
    simp only [resolveRestraints, List.map_cons] at ih ⊢
    rw [List.takeWhile_cons, List.takeWhile_cons, allFree_resolveElem]
    by_cases hf : allFree r = true
    · rw [hf]
      rfl
    · rw [Bool.not_eq_true] at hf
      rw [hf]
      simp only [Bool.not_false, if_true, List.length_cons]
      rw [ih]

theorem mem_resolve_bad {rs : List Restraint} {f : Vec3 → List (ℤ × ℤ × ℤ)}
    (h : ∃ r ∈ rs, allFree r = true) :
    ∃ r ∈ resolveRestraints rs f, allFree r = true := by
  obtain ⟨r, hr, hfr⟩ := h
  refine ⟨if r.voxels.length < 1 then { r with voxels := f r.loc } else r, ?_, ?_⟩
  · exact List.mem_map_of_mem _ hr
  · rw [allFree_resolveElem]
    exact hfr

/-- The restraint loop aborts with the no-fixed-DOF error as soon as it
reaches a restraint with all three flags clear, keeping exactly the blocks
of the restraints before it. -/
theorem writeBoundaryGo_bad (m : Fem) :
    ∀ (rs : List Restraint) (i : ℕ) (vb : VB),
      (∃ r ∈ rs, allFree r = true) →
      (writeBoundaryGo m rs i vb).2.2 = some Err.restraintNoDof ∧
      (writeBoundaryGo m rs i vb).1.length =
        (rs.takeWhile (fun r => !(allFree r))).length := by
  intro rs
  induction rs with
  | nil =>
    intro i vb h
    obtain ⟨r, hr, _⟩ := h
    simp at hr
  | cons r t ih =>
    intro i vb h
    by_cases hb : allFree r = true
    · have h1 : writeBoundaryGo m (r :: t) i vb = ([], vb, some Err.restraintNoDof) := by
        simp [writeBoundaryGo, hb]
      rw [h1, List.takeWhile_cons, hb]
      exact ⟨rfl, rfl⟩
    · have hbad : ∃ rr ∈ t, allFree rr = true := by
        rcases h with ⟨rr, hrr, hfr⟩
        rcases List.mem_cons.mp hrr with rfl | hm
        · exact absurd hfr hb
        · exact ⟨rr, hm, hfr⟩
      rw [Bool.not_eq_true] at hb
      obtain ⟨he, hl⟩ := ih (i + 1) (collectNodeSet m r.voxels vb).2 hbad
      constructor
      · show (writeBoundaryGo m (r :: t) i vb).2.2 = _
        simp only [writeBoundaryGo, hb, Bool.false_eq_true, if_false]
        exact he
      · show (writeBoundaryGo m (r :: t) i vb).1.length = _
        simp only [writeBoundaryGo, hb, Bool.false_eq_true, if_false]
        rw [List.takeWhile_cons, hb]
        simp only [Bool.not_false, if_true, List.length_cons]
        rw [hl]

/-- C1 (amended): for a valid layer range, an export whose restraint list
contains a restraint with all three fixed-DOF flags false fails with the
restraint configuration error reported to the caller — but only after the
node and element files have been written — and the boundary file contains
exactly the blocks of the restraints preceding the first such restraint
(so it is empty only when that restraint comes first). -/
theorem inpWrite_restraint_noFixedDof_error (m : Fem) (start stop : ℤ)
    (rs : List Restraint) (resolve : Vec3 → List (ℤ × ℤ × ℤ))
    (hrange : 0 ≤ start ∧ start < stop ∧ stop ≤ m.grid.lenZ)
    (hbad : ∃ r ∈ rs, allFree r = true) :
    (inpWrite m start stop rs resolve).err = some Err.restraintNoDof ∧
    (inpWrite m start stop rs resolve).bou.length =
      (rs.takeWhile (fun r => !(allFree r))).length := by
  unfold inpWrite
  rw [if_pos hrange]
  have h := writeBoundaryGo_bad m (resolveRestraints rs resolve) 0
    (writeElements m start stop (writeNodes m start stop).2).2.1
    (mem_resolve_bad hbad)
  refine ⟨h.1, ?_⟩
  show (writeBoundaryGo m (resolveRestraints rs resolve) 0 _).1.length = _
  rw [h.2, takeWhile_resolve_len]

/-- Witness for C1 (amended): a good restraint followed by an all-free
restraint yields the configuration error, and the boundary file holds the
one block of the good restraint. -/
theorem inpWrite_restraint_noFixedDof_error_witness :
    (inpWrite femEx 0 1 [goodR, badR] (fun _ => [])).err = some Err.restraintNoDof ∧
    (inpWrite femEx 0 1 [goodR, badR] (fun _ => [])).bou.length =
      ([goodR, badR].takeWhile (fun r => !(allFree r))).length :=
  inpWrite_restraint_noFixedDof_error femEx 0 1 [goodR, badR] (fun _ => [])
    (by decide) (by decide)

/-- Counterexample to C1 as stated: with a fixed-X restraint followed by an
all-free restraint, the export reports the configuration error, yet the
boundary file already holds content (the first restraint block) and the
node file was written before the check — the error is neither reported
before any file is written nor the boundary file left empty. -/
theorem inpWrite_restraint_error_after_writes_cex :
    (inpWrite femEx 0 1 [goodR, badR] (fun _ => [])).err = some Err.restraintNoDof ∧
    (inpWrite femEx 0 1 [goodR, badR] (fun _ => [])).bou ≠ [] ∧
    (inpWrite femEx 0 1 [goodR, badR] (fun _ => [])).nodes ≠ [] := by
  decide

/-! ## Marching-cubes edge interpolation (C6) -/

/-- The final linear interpolation of `mcInterpolate`:
`p1 + t*(p2 - p1)` componentwise. -/
def mcLerp (p1 p2 : Vec3) (t : ℚ) : Vec3 :=
  ⟨p1.x + t * (p2.x - p1.x), p1.y + t * (p2.y - p1.y), p1.z + t * (p2.z - p1.z)⟩

/-- `mcInterpolate` from `part_002` lines 270-297: with
`closeToV1 = |x - v1| < eps` and `closeToV2 = |x - v2| < eps`, return `p1`
when only the first holds, `p2` when only the second holds, otherwise
interpolate with `t = 0.5` when both hold and `t = (x - v1)/(v2 - v1)`
when neither does. -/
def mcInterpolate (eps : ℚ) (p1 p2 : Vec3) (v1 v2 x : ℚ) : Vec3 :=
  if |x - v1| < eps ∧ ¬(|x - v2| < eps) then p1
  else if |x - v2| < eps ∧ ¬(|x - v1| < eps) then p2
  else
    mcLerp p1 p2 (if |x - v1| < eps ∧ |x - v2| < eps then (1 : ℚ) / 2 else (x - v1) / (v2 - v1))

/-- C6: for every edge with endpoints `p1, p2`, samples `v1, v2` and
isovalue `x`: when both samples are within tolerance of the isovalue the
crossing point is the midpoint (t = 0.5); when only one side is within
tolerance the crossing point is that endpoint; otherwise it is the linear
interpolation `p1 + t*(p2 - p1)` with `t = (x - v1)/(v2 - v1)`. -/
theorem mcInterpolate_cases (eps : ℚ) (p1 p2 : Vec3) (v1 v2 x : ℚ) :
    (|x - v1| < eps → |x - v2| < eps →
      mcInterpolate eps p1 p2 v1 v2 x =
        ⟨(p1.x + p2.x) / 2, (p1.y + p2.y) / 2, (p1.z + p2.z) / 2⟩) ∧
    (|x - v1| < eps → ¬(|x - v2| < eps) → mcInterpolate eps p1 p2 v1 v2 x = p1) ∧
    (¬(|x - v1| < eps) → |x - v2| < eps → mcInterpolate eps p1 p2 v1 v2 x = p2) ∧
    (¬(|x - v1| < eps) → ¬(|x - v2| < eps) →
      mcInterpolate eps p1 p2 v1 v2 x =
        ⟨p1.x + (x - v1) / (v2 - v1) * (p2.x - p1.x),
         p1.y + (x - v1) / (v2 - v1) * (p2.y - p1.y),
         p1.z + (x - v1) / (v2 - v1) * (p2.z - p1.z)⟩) := by
  refine ⟨?_, ?_, ?_, ?_⟩
  · intro h1 h2
    unfold mcInterpolate
    rw [if_neg (by tauto), if_neg (by tauto), if_pos ⟨h1, h2⟩]
    unfold mcLerp
    simp only [Vec3.mk.injEq]
    refine ⟨by ring, by ring, by ring⟩
  · intro h1 h2
    unfold mcInterpolate
    rw [if_pos ⟨h1, h2⟩]
  · intro h1 h2
    unfold mcInterpolate
    rw [if_neg (by tauto), if_pos ⟨h2, h1⟩]
  · intro h1 h2
    unfold mcInterpolate
    rw [if_neg (by tauto), if_neg (by tauto), if_neg (by tauto)]
    rfl

/-- Witness for C6: with tolerance 1, samples 0 and 5 and isovalue 5, only
the second endpoint is within tolerance, so the crossing point is `p2`. -/
theorem mcInterpolate_cases_witness :
    mcInterpolate 1 ⟨0, 0, 0⟩ ⟨1, 1, 1⟩ 0 5 5 = ⟨1, 1, 1⟩ :=
  (mcInterpolate_cases 1 ⟨0, 0, 0⟩ ⟨1, 1, 1⟩ 0 5 5).2.2.1 (by norm_num) (by norm_num)

/-! ## Tetrahedron quality gate and Jacobian test (`march3fe.go`, C5 and C7)

These functions take square roots of coordinates, so they are embedded
over the real numbers; Go float64 rounding is not modelled. -/

noncomputable section

/-- A 3D point with real coordinates, for the geometry of `march3fe.go`. -/
structure RVec where
  x : ℝ
  y : ℝ
  z : ℝ

/-- `v3.Vec.Sub`. -/
def rsub (a b : RVec) : RVec := ⟨a.x - b.x, a.y - b.y, a.z - b.z⟩

/-- `v3.Vec.Dot`. -/
def rdot (a b : RVec) : ℝ := a.x * b.x + a.y * b.y + a.z * b.z

/-- `v3.Vec.Cross`. -/
def rcross (a b : RVec) : RVec :=
  ⟨a.y * b.z - a.z * b.y, a.z * b.x - a.x * b.z, a.x * b.y - a.y * b.x⟩

/-- `v3.Vec.Length`: the Euclidean norm. -/
def rlen (a : RVec) : ℝ := Real.sqrt (rdot a a)

/-- The zero-edge-length check of `isZeroVolume` (`march3fe.go` lines
205-210), testing the six edge norms `nab, ncd, nbd, nbc, nac, nad` in
source order. -/
def hasZeroEdge (a b c d : RVec) : Prop :=
  rlen (rsub b a) = 0 ∨ rlen (rsub d c) = 0 ∨ rlen (rsub d b) = 0 ∨
  rlen (rsub c b) = 0 ∨ rlen (rsub c a) = 0 ∨ rlen (rsub d a) = 0

/-- `isZeroVolume` (`march3fe.go` lines 192-222) as a predicate: flag the
tetrahedron when an edge length is zero, and otherwise when
`rho = 480 * volume / denom < 1` with
`volume = 1/6 * |ab x ac . ad|` and
`denom = (nab+ncd) * (nac+nbd) * (nad+nbc)`. -/
def isZeroVolumeFlag (a b c d : RVec) : Prop :=
  hasZeroEdge a b c d ∨
  (¬hasZeroEdge a b c d ∧
    480 * (1 / 6 * |rdot (rcross (rsub b a) (rsub c a)) (rsub d a)|) /
        ((rlen (rsub b a) + rlen (rsub d c)) * (rlen (rsub c a) + rlen (rsub d b)) *
          (rlen (rsub d a) + rlen (rsub c b))) < 1)

/-- The shape-function table of `isBad` (`march3fe.go` lines 258-285):
row 3 holds the shape functions at the centroid Gauss point
`(xi, et, ze) = (1/4, 1/4, 1/4)` and rows 0-2 their local derivatives. -/
def shp : ℕ → ℕ → ℝ := fun j k =>
  match j, k with
  | 0, 0 => -1
  | 0, 1 => 1
  | 0, 2 => 0
  | 0, 3 => 0
  | 1, 0 => -1
  | 1, 1 => 0
  | 1, 2 => 1
  | 1, 3 => 0
  | 2, 0 => -1
  | 2, 1 => 0
  | 2, 2 => 0
  | 2, 3 => 1
  | 3, 0 => 1 - 1 / 4 - 1 / 4 - 1 / 4
  | 3, 1 => 1 / 4
  | 3, 2 => 1 / 4
  | 3, 3 => 1 / 4
  | _, _ => 0

/-- Coordinate `i` of a point (`xl[i][...]`). -/
def comp (v : RVec) : ℕ → ℝ := fun i =>
  match i with
  | 0 => v.x
  | 1 => v.y
  | _ => v.z

/-- The node-coordinate array `xl` of `isBad` (lines 231-247). -/
def xlM (a b c d : RVec) : ℕ → ℕ → ℝ := fun i k =>
  match k with
  | 0 => comp a i
  | 1 => comp b i
  | 2 => comp c i
  | _ => comp d i

/-- `xs[i][j]` of `isBad` (lines 288-296): the inner loop over the four
nodes, unrolled. -/
def xsM (a b c d : RVec) (i j : ℕ) : ℝ :=
  xlM a b c d i 0 * shp j 0 + xlM a b c d i 1 * shp j 1 +
  xlM a b c d i 2 * shp j 2 + xlM a b c d i 3 * shp j 3

/-- The Jacobian determinant `xsj` of `isBad` (lines 299-301). -/
def xsj (a b c d : RVec) : ℝ :=
  xsM a b c d 0 0 * (xsM a b c d 1 1 * xsM a b c d 2 2 - xsM a b c d 1 2 * xsM a b c d 2 1) -
  xsM a b c d 0 1 * (xsM a b c d 1 0 * xsM a b c d 2 2 - xsM a b c d 1 2 * xsM a b c d 2 0) +
  xsM a b c d 0 2 * (xsM a b c d 1 0 * xsM a b c d 2 1 - xsM a b c d 1 1 * xsM a b c d 2 0)

/-- `isBad` (lines 229-305) as a predicate: flag the element when the
Jacobian determinant is below the CalculiX threshold 1e-20. -/
def isBadFlag (a b c d : RVec) : Prop := xsj a b c d < 1 / 10 ^ 20

/-- The Jacobian determinant equals the determinant of the edge-vector
matrix with columns `b - a`, `c - a`, `d - a`. -/
theorem xsj_eq (a b c d : RVec) :
    xsj a b c d =
      (b.x - a.x) * ((c.y - a.y) * (d.z - a.z) - (d.y - a.y) * (c.z - a.z)) -
      (c.x - a.x) * ((b.y - a.y) * (d.z - a.z) - (d.y - a.y) * (b.z - a.z)) +
      (d.x - a.x) * ((b.y - a.y) * (c.z - a.z) - (c.y - a.y) * (b.z - a.z)) := by
  have h00 : xsM a b c d 0 0 = b.x - a.x := by
    show a.x * -1 + b.x * 1 + c.x * 0 + d.x * 0 = b.x - a.x
    ring
  have h01 : xsM a b c d 0 1 = c.x - a.x := by
    show a.x * -1 + b.x * 0 + c.x * 1 + d.x * 0 = c.x - a.x
    ring
  have h02 : xsM a b c d 0 2 = d.x - a.x := by
    show a.x * -1 + b.x * 0 + c.x * 0 + d.x * 1 = d.x - a.x
    ring
  have h10 : xsM a b c d 1 0 = b.y - a.y := by
    show a.y * -1 + b.y * 1 + c.y * 0 + d.y * 0 = b.y - a.y
    ring
  have h11 : xsM a b c d 1 1 = c.y - a.y := by
    show a.y * -1 + b.y * 0 + c.y * 1 + d.y * 0 = c.y - a.y
    ring
  have h12 : xsM a b c d 1 2 = d.y - a.y := by
    show a.y * -1 + b.y * 0 + c.y * 0 + d.y * 1 = d.y - a.y
    ring
  have h20 : xsM a b c d 2 0 = b.z - a.z := by
    show a.z * -1 + b.z * 1 + c.z * 0 + d.z * 0 = b.z - a.z
    ring
  have h21 : xsM a b c d 2 1 = c.z - a.z := by
    show a.z * -1 + b.z * 0 + c.z * 1 + d.z * 0 = c.z - a.z
    ring
  have h22 : xsM a b c d 2 2 = d.z - a.z := by
    show a.z * -1 + b.z * 0 + c.z * 0 + d.z * 1 = d.z - a.z
    ring
  unfold xsj
  rw [h00, h01, h02, h10, h11, h12, h20, h21, h22]

theorem rlen_eq_zero {v : RVec} (h : rlen v = 0) :
    v.x = 0 ∧ v.y = 0 ∧ v.z = 0 := by
  unfold rlen rdot at h
  have hnn : (0 : ℝ) ≤ v.x * v.x + v.y * v.y + v.z * v.z :=
    add_nonneg (add_nonneg (mul_self_nonneg _) (mul_self_nonneg _)) (mul_self_nonneg _)
  have hs : v.x * v.x + v.y * v.y + v.z * v.z = 0 := (Real.sqrt_eq_zero hnn).mp h
  refine ⟨?_, ?_, ?_⟩
  · have : v.x * v.x = 0 := by nlinarith [mul_self_nonneg v.y, mul_self_nonneg v.z]
    exact mul_self_eq_zero.mp this
  · have : v.y * v.y = 0 := by nlinarith [mul_self_nonneg v.x, mul_self_nonneg v.z]
    exact mul_self_eq_zero.mp this
  · have : v.z * v.z = 0 := by nlinarith [mul_self_nonneg v.x, mul_self_nonneg v.y]
    exact mul_self_eq_zero.mp this

/-- C5 (amended): the Jacobian-determinant test confirms the quality gate
on the zero-edge-length branch: every tetrahedron candidate flagged for a
zero edge length is also flagged by the Jacobian test (its determinant is
zero, below the 1e-20 threshold).  The ratio branch of the quality gate is
not confirmed by the Jacobian test: see the counterexample. -/
theorem zero_edge_implies_jacobian_flag (a b c d : RVec)
    (h : hasZeroEdge a b c d) : isBadFlag a b c d := by
  unfold isBadFlag
  have hz : xsj a b c d = 0 := by
    rw [xsj_eq]
    unfold hasZeroEdge at h
    rcases h with h | h | h | h | h | h
    · obtain ⟨h1, h2, h3⟩ := rlen_eq_zero h
      simp only [rsub] at h1 h2 h3
      rw [show b.x = a.x from by linarith, show b.y = a.y from by linarith,
        show b.z = a.z from by linarith]
      ring
    · obtain ⟨h1, h2, h3⟩ := rlen_eq_zero h
      simp only [rsub] at h1 h2 h3
      rw [show d.x = c.x from by linarith, show d.y = c.y from by linarith,
        show d.z = c.z from by linarith]
      ring
    · obtain ⟨h1, h2, h3⟩ := rlen_eq_zero h
      simp only [rsub] at h1 h2 h3
      rw [show d.x = b.x from by linarith, show d.y = b.y from by linarith,
        show d.z = b.z from by linarith]
      ring
    · obtain ⟨h1, h2, h3⟩ := rlen_eq_zero h
      simp only [rsub] at h1 h2 h3
      rw [show c.x = b.x from by linarith, show c.y = b.y from by linarith,
        show c.z = b.z from by linarith]
      ring
    · obtain ⟨h1, h2, h3⟩ := rlen_eq_zero h
      simp only [rsub] at h1 h2 h3
      rw [show c.x = a.x from by linarith, show c.y = a.y from by linarith,
        show c.z = a.z from by linarith]
      ring
    · obtain ⟨h1, h2, h3⟩ := rlen_eq_zero h
      simp only [rsub] at h1 h2 h3
      rw [show d.x = a.x from by linarith, show d.y = a.y from by linarith,
        show d.z = a.z from by linarith]
      ring
  rw [hz]
  norm_num

/-- Witness for C5 (amended) at a tetrahedron with two coincident
vertices. -/
theorem zero_edge_implies_jacobian_flag_witness :
    isBadFlag ⟨0, 0, 0⟩ ⟨0, 0, 0⟩ ⟨0, 1, 0⟩ ⟨0, 0, 1⟩ :=
  zero_edge_implies_jacobian_flag _ _ _ _
    (Or.inl (by simp [rsub, rlen, rdot]))

theorem rlen_nonneg (v : RVec) : 0 ≤ rlen v := Real.sqrt_nonneg _

/-- A large well-oriented sliver: the scaled right-corner tetrahedron with
legs 1000, 1000 and 1. -/
def cexA : RVec := ⟨0, 0, 0⟩

/-- Second vertex of the sliver. -/
def cexB : RVec := ⟨1000, 0, 0⟩

/-- Third vertex of the sliver. -/
def cexC : RVec := ⟨0, 1000, 0⟩

/-- Fourth vertex of the sliver. -/
def cexD : RVec := ⟨0, 0, 1⟩

/-- Counterexample to C5 as stated: this tetrahedron is flagged degenerate
by the triple-product quality gate (its normalized volume ratio is below
1/480), yet its Jacobian determinant is 10^6, far above the 1e-20
threshold, so the Jacobian-determinant test does not flag it. -/
theorem quality_gate_not_confirmed_by_jacobian_cex :
    isZeroVolumeFlag cexA cexB cexC cexD ∧ ¬isBadFlag cexA cexB cexC cexD := by
  have hab : rlen (rsub cexB cexA) = 1000 := by
    simp only [rlen, rdot, rsub, cexA, cexB]
    norm_num
    rw [show (1000000 : ℝ) = 1000 ^ 2 by norm_num]
    exact Real.sqrt_sq (by norm_num)
  have hac : rlen (rsub cexC cexA) = 1000 := by
    simp only [rlen, rdot, rsub, cexA, cexC]
    norm_num
    rw [show (1000000 : ℝ) = 1000 ^ 2 by norm_num]
    exact Real.sqrt_sq (by norm_num)
  have had : rlen (rsub cexD cexA) = 1 := by
    simp only [rlen, rdot, rsub, cexA, cexD]
    norm_num
  have hcd : rlen (rsub cexD cexC) = Real.sqrt 1000001 := by
    simp only [rlen, rdot, rsub, cexC, cexD]
    norm_num
  have hbd : rlen (rsub cexD cexB) = Real.sqrt 1000001 := by
    simp only [rlen, rdot, rsub, cexB, cexD]
    norm_num
  have hbc : rlen (rsub cexC cexB) = Real.sqrt 2000000 := by
    simp only [rlen, rdot, rsub, cexB, cexC]
    norm_num
  have hbc1000 : (1000 : ℝ) ≤ Real.sqrt 2000000 := by
    have h1 : Real.sqrt 1000000 ≤ Real.sqrt 2000000 := Real.sqrt_le_sqrt (by norm_num)
    rw [show (1000000 : ℝ) = 1000 ^ 2 by norm_num, Real.sqrt_sq (by norm_num : (0:ℝ) ≤ 1000)]
      at h1
    exact h1
  have hT : rdot (rcross (rsub cexB cexA) (rsub cexC cexA)) (rsub cexD cexA) = 1000000 := by
    simp only [rdot, rcross, rsub, cexA, cexB, cexC, cexD]
    norm_num
  have hnz : ¬hasZeroEdge cexA cexB cexC cexD := by
    unfold hasZeroEdge
    push_neg
    refine ⟨?_, ?_, ?_, ?_, ?_, ?_⟩
    · rw [hab]; norm_num
    · rw [hcd]
      exact ne_of_gt (Real.sqrt_pos.mpr (by norm_num))
    · rw [hbd]
      exact ne_of_gt (Real.sqrt_pos.mpr (by norm_num))
    · rw [hbc]
      exact ne_of_gt (Real.sqrt_pos.mpr (by norm_num))
    · rw [hac]; norm_num
    · rw [had]; norm_num
  have hA : (1000 : ℝ) ≤ rlen (rsub cexB cexA) + rlen (rsub cexD cexC) := by
    have := rlen_nonneg (rsub cexD cexC)
    rw [hab]
    linarith
  have hB : (1000 : ℝ) ≤ rlen (rsub cexC cexA) + rlen (rsub cexD cexB) := by
    have := rlen_nonneg (rsub cexD cexB)
    rw [hac]
    linarith
  have hC : (1001 : ℝ) ≤ rlen (rsub cexD cexA) + rlen (rsub cexC cexB) := by
    rw [had, hbc]
    linarith
  have hABnn : (0 : ℝ) ≤ (rlen (rsub cexB cexA) + rlen (rsub cexD cexC)) *
      (rlen (rsub cexC cexA) + rlen (rsub cexD cexB)) := by
    have := add_nonneg (rlen_nonneg (rsub cexB cexA)) (rlen_nonneg (rsub cexD cexC))
    have := add_nonneg (rlen_nonneg (rsub cexC cexA)) (rlen_nonneg (rsub cexD cexB))
    positivity
  have h1 : (1000 : ℝ) * 1000 ≤
      (rlen (rsub cexB cexA) + rlen (rsub cexD cexC)) *
        (rlen (rsub cexC cexA) + rlen (rsub cexD cexB)) :=
    mul_le_mul hA hB (by norm_num) (by linarith)
  have h2 : (1000000 : ℝ) * 1001 ≤
      (rlen (rsub cexB cexA) + rlen (rsub cexD cexC)) *
        (rlen (rsub cexC cexA) + rlen (rsub cexD cexB)) *
        (rlen (rsub cexD cexA) + rlen (rsub cexC cexB)) :=
    mul_le_mul (by linarith) hC (by norm_num) hABnn
  have hD0 : (0 : ℝ) <
      (rlen (rsub cexB cexA) + rlen (rsub cexD cexC)) *
        (rlen (rsub cexC cexA) + rlen (rsub cexD cexB)) *
        (rlen (rsub cexD cexA) + rlen (rsub cexC cexB)) := by
    nlinarith
  constructor
  · refine Or.inr ⟨hnz, ?_⟩
    rw [hT, div_lt_one hD0]
    rw [show |(1000000 : ℝ)| = 1000000 from abs_of_nonneg (by norm_num)]
    nlinarith
  · unfold isBadFlag
    rw [xsj_eq]
    simp only [cexA, cexB, cexC, cexD]
    norm_num

/-- C7: the quality gate flags a tetrahedron candidate as degenerate
exactly when one of its six edge lengths is zero, or when
`480 * V / ((|ab|+|cd|) * (|ac|+|bd|) * (|ad|+|bc|)) < 1` with
`V = |(ab x ac) . ad| / 6` the volume from the scalar triple product of
the edge vectors taken from vertex `a`. -/
theorem isZeroVolume_iff_spec (a b c d : RVec) :
    isZeroVolumeFlag a b c d ↔
      ((rlen (rsub b a) = 0 ∨ rlen (rsub d c) = 0 ∨ rlen (rsub d b) = 0 ∨
        rlen (rsub c b) = 0 ∨ rlen (rsub c a) = 0 ∨ rlen (rsub d a) = 0) ∨
      480 * (|rdot (rcross (rsub b a) (rsub c a)) (rsub d a)| / 6) /
          ((rlen (rsub b a) + rlen (rsub d c)) * (rlen (rsub c a) + rlen (rsub d b)) *
            (rlen (rsub d a) + rlen (rsub c b))) < 1) := by
  have hq : 480 * (1 / 6 * |rdot (rcross (rsub b a) (rsub c a)) (rsub d a)|) /
      ((rlen (rsub b a) + rlen (rsub d c)) * (rlen (rsub c a) + rlen (rsub d b)) *
        (rlen (rsub d a) + rlen (rsub c b))) =
      480 * (|rdot (rcross (rsub b a) (rsub c a)) (rsub d a)| / 6) /
      ((rlen (rsub b a) + rlen (rsub d c)) * (rlen (rsub c a) + rlen (rsub d b)) *
        (rlen (rsub d a) + rlen (rsub c b))) := by
    ring
  unfold isZeroVolumeFlag hasZeroEdge
  rw [hq]
  constructor
  · rintro (hz | ⟨_, hr⟩)
    · exact Or.inl hz
    · exact Or.inr hr
  · rintro (hz | hr)
    · exact Or.inl hz
    · by_cases hz : rlen (rsub b a) = 0 ∨ rlen (rsub d c) = 0 ∨ rlen (rsub d b) = 0 ∨
        rlen (rsub c b) = 0 ∨ rlen (rsub c a) = 0 ∨ rlen (rsub d a) = 0
      · exact Or.inl hz
      · exact Or.inr ⟨hz, hr⟩

end

end Sdfx
